import Mathlib

/-!
Shallow embedding of `src/select.rs` of the `r1cs-std` fragment: the
multi-way selection engine (`repeated_selection`, `sum_of_conditions`,
`conditionally_select_power_of_two_vector`), the `count_ones` helper, and
the two lookup-gadget entry points, together with proofs of the spec's
claims about them.

Modelling conventions:
* A Rust `Result<T, SynthesisError>` together with the possibility of a
  panic (`assert!`, `unimplemented!`, out-of-bounds indexing) is modelled
  by `RunResult ε α` with constructors `panic`, `err`, `ok`.
* A `Boolean<F>` selector wire with a definite witness value is modelled
  by a `Bool`.
* The effectful trait method `CondSelectGadget::conditionally_select`
  (it may allocate variables and emit constraints in the caller-owned
  constraint system) is modelled by an explicit state-passing function
  `cs : σ → Bool → α → α → RunResult ε (α × σ)`; the constraint-system
  state σ is threaded through the computation, and the argument order is
  (state, condition, true_value, false_value).
* `LinearCombination<F>` values are modelled by a symbolic syntax tree
  `LC`; `sum_of_conditions` builds them but never observes their
  contents before diverging, so the syntactic model is sufficient.
-/

namespace Select

/-- Outcome of running a fragment of the Rust code: a panic
(`assert!` failure, `unimplemented!()`, index out of bounds), an
`Err(e)` return, or an `Ok(a)` return. -/
inductive RunResult (ε α : Type) : Type where
  | panic : RunResult ε α
  | err : ε → RunResult ε α
  | ok : α → RunResult ε α
deriving Repr, DecidableEq

/-- Loop of `count_ones` (src/src/select.rs lines 40-49): while `y > 0`,
add the low bit of `y` to `count` and shift `y` right by one. -/
def count_ones_loop (count y : Nat) : Nat :=
  if h : 0 < y then count_ones_loop (count + (y &&& 1)) (y >>> 1) else count
termination_by y
decreasing_by
  have hdiv : y >>> 1 = y / 2 := by
    rw [Nat.shiftRight_eq_div_pow, pow_one]
  rw [hdiv]
  exact Nat.div_lt_self h one_lt_two

/-- Model of `count_ones` (src/src/select.rs lines 40-49): counts the
number of 1 bits in the binary representation of `x`. -/
def count_ones (x : Nat) : Nat := count_ones_loop 0 x

/-- Model of Rust's `usize::is_power_of_two`, which is defined in the
standard library as `self.count_ones() == 1`; used by the
`assert!(m.is_power_of_two())` preconditions in both multi-way
selection functions. -/
def rust_is_power_of_two (m : Nat) : Bool := count_ones m == 1

/-- Symbolic model of `ark_relations::r1cs::LinearCombination` restricted
to the operations `sum_of_conditions` performs on it:
`Boolean::constant(b).lc()`, the `lc()` of a selector wire with definite
witness value `b`, addition and subtraction. -/
inductive LC : Type where
  | ofConstant : Bool → LC
  | ofWire : Bool → LC
  | add : LC → LC → LC
  | sub : LC → LC → LC
deriving Repr, DecidableEq, Inhabited

/-- Selector-table construction of `sum_of_conditions`
(src/src/select.rs lines 63-102): the vector starts as `m` copies of
`Boolean::constant(true).lc()`; then for each `i < n` the entry at
`1 << i` becomes `position[i].lc()` and each entry at
`j ∈ (2^i, 2^(i+1))` becomes `selectors[1 << i] + selectors[j - 2^i]`. -/
def socSelectors (pos : List Bool) (m n : Nat) : List LC :=
  (List.range n).foldl
    (fun sel i =>
      let sel1 := sel.set (1 <<< i) (LC.ofWire (pos.getD i false))
      (List.range' ((1 <<< i) + 1) ((1 <<< (i + 1)) - ((1 <<< i) + 1))).foldl
        (fun s j =>
          s.set j (LC.add (s.getD (1 <<< i) default) (s.getD (j - (1 <<< i)) default)))
        sel1)
    (List.replicate m (LC.ofConstant true))

/-- Inclusion-exclusion accumulation of `sum_of_conditions`
(src/src/select.rs lines 104-116): `selector_sums` is created with
`Vec::with_capacity(m)` but nothing is pushed, so it has length 0; for
each `i < m`, `j < m` with `i | j == j` the code reads
`selector_sums[i]`, which panics (modelled by `none`) whenever `i` is
out of bounds of the empty vector. -/
def selectorSumsLoop (selectors : List LC) (m : Nat) : Option (List LC) :=
  (List.range m).foldlM
    (fun sums i =>
      (List.range m).foldlM
        (fun (s : List LC) j =>
          if i ||| j == j then
            match s[i]?, selectors[j]? with
            | some si, some sj =>
              some (s.set i
                (if count_ones (j - i) % 2 == 0 then LC.add si sj else LC.sub si sj))
            | _, _ => none
          else some s)
        sums)
    ([] : List LC)

/-- Model of `sum_of_conditions` (src/src/select.rs lines 52-129).
After the two precondition asserts it builds the selector table, then
runs the inclusion-exclusion loop over the never-filled `selector_sums`
vector (out-of-bounds panic), and even if that loop completed, the
accumulated weighted sum is discarded and the function ends in
`unimplemented!()` — also a panic. -/
def sum_of_conditions {ε α : Type} (position : List Bool) (values : List α) :
    RunResult ε α :=
  if rust_is_power_of_two values.length then
    if 1 <<< position.length = values.length then
      match selectorSumsLoop (socSelectors position values.length position.length)
          values.length with
      | none => RunResult.panic
      | some _ => RunResult.panic
    else RunResult.panic
  else RunResult.panic

/-- Inner loop of `repeated_selection` (src/src/select.rs lines 152-161)
on one layer: for `j = 0, 2, 4, ...` call
`conditionally_select(&position[n-1-i], &cur[j+1], &cur[j])` and collect
the results; reading `cur[j+1]` of a single leftover element is an
out-of-bounds panic. The constraint-system state is threaded through
the calls, and an `Err` from `conditionally_select` is returned by `?`
immediately. -/
def pairSelect {σ ε α : Type} (cs : σ → Bool → α → α → RunResult ε (α × σ))
    (b : Bool) : σ → List α → RunResult ε (List α × σ)
  | s, x :: y :: rest =>
    match cs s b y x with
    | RunResult.ok (v, s1) =>
      match pairSelect cs b s1 rest with
      | RunResult.ok (vs, s2) => RunResult.ok (v :: vs, s2)
      | RunResult.err e => RunResult.err e
      | RunResult.panic => RunResult.panic
    | RunResult.err e => RunResult.err e
    | RunResult.panic => RunResult.panic
  | s, [] => RunResult.ok ([], s)
  | _, [_] => RunResult.panic

/-- Level-order traversal of `repeated_selection`
(src/src/select.rs lines 146-165), indexed by the number `k` of levels
that remain (the Rust loop variable is `i = n - k`): with `k + 1`
levels remaining the code asserts `cur.len() == 1 << (k+1)`, reads the
bit `position[k]`, runs one `pairSelect` layer and recurses; with no
level remaining it returns `Ok(cur[0].clone())`. -/
def repeatedSelectionAux {σ ε α : Type}
    (cs : σ → Bool → α → α → RunResult ε (α × σ)) (pos : List Bool) :
    Nat → σ → List α → RunResult ε (α × σ)
  | 0, s, cur =>
    match cur[0]? with
    | some v => RunResult.ok (v, s)
    | none => RunResult.panic
  | k + 1, s, cur =>
    if cur.length = 1 <<< (k + 1) then
      match pos[k]? with
      | some b =>
        match pairSelect cs b s cur with
        | RunResult.ok (next, s1) => repeatedSelectionAux cs pos k s1 next
        | RunResult.err e => RunResult.err e
        | RunResult.panic => RunResult.panic
      | none => RunResult.panic
    else RunResult.panic

/-- Model of `repeated_selection` (src/src/select.rs lines 132-166):
assert `m.is_power_of_two()` and `1 << n == m`, then run the binary
selection tree bottom-up. -/
def repeated_selection {σ ε α : Type}
    (cs : σ → Bool → α → α → RunResult ε (α × σ)) (s : σ)
    (position : List Bool) (values : List α) : RunResult ε (α × σ) :=
  if rust_is_power_of_two values.length then
    if 1 <<< position.length = values.length then
      repeatedSelectionAux cs position position.length s values
    else RunResult.panic
  else RunResult.panic

/-- Model of the public entry point
`CondSelectGadget::conditionally_select_power_of_two_vector`
(src/src/select.rs lines 31-37): it first evaluates
`let _ = sum_of_conditions(position, values);` — a panic there
propagates, while an `Ok`/`Err` value is discarded — and then returns
`repeated_selection(position, values)`. -/
def conditionally_select_power_of_two_vector {σ ε α : Type}
    (cs : σ → Bool → α → α → RunResult ε (α × σ)) (s : σ)
    (position : List Bool) (values : List α) : RunResult ε (α × σ) :=
  match (sum_of_conditions position values : RunResult ε α) with
  | RunResult.panic => RunResult.panic
  | RunResult.err _ => repeated_selection cs s position values
  | RunResult.ok _ => repeated_selection cs s position values

/-- Modelled from the spec: the trait `TwoBitLookupGadget`
(src/src/select.rs lines 169-189) declares `two_bit_lookup` without a
default body and no realization is under src; the behavior below follows
the spec (section 4.3) and the trait's doc comment: panic unless
`bits.len() == 2` and `constants.len() == 4`, and otherwise return the
value of `constants[b]` with `b = bits[0] + 2 * bits[1]`, `bits[0]`
least significant. -/
def two_bit_lookup {ε α : Type} (bits : List Bool) (constants : List α) :
    RunResult ε α :=
  if bits.length ≠ 2 ∨ constants.length ≠ 4 then RunResult.panic
  else
    match constants[((if bits.getD 0 false then 1 else 0) +
        2 * (if bits.getD 1 false then 1 else 0) : Nat)]? with
    | some v => RunResult.ok v
    | none => RunResult.panic

/-- Modelled from the spec: the trait `ThreeBitCondNegLookupGadget`
(src/src/select.rs lines 193-217) declares `three_bit_cond_neg_lookup`
without a default body and no realization is under src; the behavior
below follows the spec (section 4.3) and the trait's doc comment: panic
unless `bits.len() == 3` and `constants.len() == 4`, and otherwise
return the value of `constants[b] * c` with `b = bits[0] + 2 * bits[1]`
and `c = -1` if `bits[2]` else `+1`. The parameter list
`(bits, b0b1, constants)` is the source declaration's
(src/src/select.rs lines 212-216); the spec's stated semantics do not
depend on `b0b1`. -/
def three_bit_cond_neg_lookup {ε α : Type} [Ring α] (bits : List Bool)
    (b0b1 : Bool) (constants : List α) : RunResult ε α :=
  if bits.length ≠ 3 ∨ constants.length ≠ 4 then RunResult.panic
  else
    match constants[((if bits.getD 0 false then 1 else 0) +
        2 * (if bits.getD 1 false then 1 else 0) : Nat)]? with
    | some v => RunResult.ok (v * (if bits.getD 2 false then -1 else 1))
    | none => RunResult.panic

/-- Parameter list of the source declaration of
`three_bit_cond_neg_lookup` (src/src/select.rs lines 212-216). -/
def three_bit_cond_neg_lookup_params : List String := ["bits", "b0b1", "constants"]

/-- Parameter list that the spec (section 6) gives for the three-bit
lookup entry point: `three_bit_cond_neg_lookup(bits, constants)`. -/
def three_bit_cond_neg_lookup_spec_params : List String := ["bits", "constants"]

/-- A concrete `conditionally_select` realization satisfying the
two-way contract (spec section 4.1) over natural-number values with a
trivial constraint-system state; used to instantiate theorems at
concrete inputs. -/
def idealCS : Unit → Bool → Nat → Nat → RunResult Unit (Nat × Unit) :=
  fun s c t f => RunResult.ok (if c then t else f, s)

/-- A `conditionally_select` realization over a call-counting
constraint-system state that behaves normally (returning `val s c t f`)
on the first `K` invocations, returns `Err e` on invocation number `K`,
and panics on every invocation after that; used to express that an
error from the `K`-th two-way select is propagated unchanged and that
no further two-way select runs after it. -/
def failAtCS {ε α : Type} (val : Nat → Bool → α → α → α) (e : ε) (K : Nat) :
    Nat → Bool → α → α → RunResult ε (α × Nat) :=
  fun s c t f =>
    if s < K then RunResult.ok (val s c t f, s + 1)
    else if s = K then RunResult.err e
    else RunResult.panic

/-- The integer encoded by a selector-bit sequence read
most-significant-bit-first: `∑ k, position[k] * 2 ^ (n - 1 - k)`
(spec sections 4.2 and 8). -/
def bigEndianVal (pos : List Bool) : Nat :=
  ∑ k ∈ Finset.range pos.length,
    (if pos.getD k false then 1 else 0) * 2 ^ (pos.length - 1 - k)

/-- Recursive form of `bigEndianVal`, used in the proofs. -/
def bevRec : List Bool → Nat
  | [] => 0
  | b :: bs => (if b then 1 else 0) * 2 ^ bs.length + bevRec bs

/-- One ideal layer of the selection tree: adjacent candidates are
paired and the pair `(cur[2j], cur[2j+1])` is replaced by `cur[2j+1]`
when the current bit is set and by `cur[2j]` otherwise. -/
def levelIdeal {α : Type} (b : Bool) : List α → List α
  | x :: y :: rest => (if b then y else x) :: levelIdeal b rest
  | [_] => []
  | [] => []

lemma count_ones_loop_pos (count y : Nat) (h : 0 < y) :
    count_ones_loop count y = count_ones_loop (count + (y &&& 1)) (y >>> 1) := by
  rw [count_ones_loop.eq_def, dif_pos h]

lemma count_ones_loop_zero (count : Nat) : count_ones_loop count 0 = count := by
  rw [count_ones_loop.eq_def, dif_neg (by omega)]

lemma count_ones_loop_digits (y : Nat) :
    ∀ count, count_ones_loop count y = count + (Nat.digits 2 y).count 1 := by
  induction y using Nat.strong_induction_on with
  | _ y ih =>
    intro count
    rcases Nat.eq_zero_or_pos y with h0 | hpos
    · subst h0
      simp [count_ones_loop_zero]
    · rw [count_ones_loop_pos count y hpos]
      have hdiv : y >>> 1 = y / 2 := by
        rw [Nat.shiftRight_eq_div_pow, pow_one]
      rw [hdiv, Nat.and_one_is_mod,
        ih (y / 2) (Nat.div_lt_self hpos one_lt_two),
        Nat.digits_def' one_lt_two hpos]
      rcases Nat.mod_two_eq_zero_or_one y with h | h <;>
        simp [h, List.count_cons] <;> omega

lemma count_ones_digits (x : Nat) : count_ones x = (Nat.digits 2 x).count 1 := by
  simpa [count_ones] using count_ones_loop_digits x 0

lemma count_ones_two_pow (n : Nat) : count_ones (2 ^ n) = 1 := by
  induction n with
  | zero =>
    show count_ones_loop 0 1 = 1
    rw [count_ones_loop_pos 0 1 (by omega)]
    norm_num
    exact count_ones_loop_zero 1
  | succ n ih =>
    have h1 : 2 ^ (n + 1) &&& 1 = 0 := by
      rw [Nat.and_one_is_mod, pow_succ, Nat.mul_mod_left]
    have h2 : 2 ^ (n + 1) >>> 1 = 2 ^ n := by
      rw [Nat.shiftRight_eq_div_pow, pow_one, pow_succ,
        Nat.mul_div_cancel _ (by omega : 0 < 2)]
    show count_ones_loop 0 (2 ^ (n + 1)) = 1
    rw [count_ones_loop_pos 0 (2 ^ (n + 1)) (Nat.two_pow_pos (n + 1)), h1, h2]
    exact ih

lemma rust_is_power_of_two_pow (n : Nat) :
    rust_is_power_of_two (2 ^ n) = true := by
  simp [rust_is_power_of_two, count_ones_two_pow]

lemma bevRec_lt (l : List Bool) : bevRec l < 2 ^ l.length := by
  induction l with
  | nil => simp [bevRec]
  | cons b bs ih =>
    have hb : (if b then 1 else 0) ≤ 1 := by split <;> omega
    have : bevRec (b :: bs) ≤ 2 ^ bs.length + bevRec bs := by
      simp only [bevRec]
      have := Nat.mul_le_mul_right (2 ^ bs.length) hb
      omega
    have hpow : (2 : Nat) ^ (b :: bs).length = 2 ^ bs.length + 2 ^ bs.length := by
      simp [List.length_cons, pow_succ]
      omega
    omega

lemma bevRec_append (bs : List Bool) (b : Bool) :
    bevRec (bs ++ [b]) = 2 * bevRec bs + (if b then 1 else 0) := by
  induction bs with
  | nil => simp [bevRec]
  | cons c cs ih =>
    have h1 : bevRec ((c :: cs) ++ [b]) =
        (if c then 1 else 0) * 2 ^ (cs ++ [b]).length + bevRec (cs ++ [b]) := rfl
    rw [h1, ih]
    have h2 : (cs ++ [b]).length = cs.length + 1 := by simp
    rw [h2, pow_succ]
    simp only [bevRec]
    ring

lemma bigEndianVal_eq_bevRec (l : List Bool) : bigEndianVal l = bevRec l := by
  induction l with
  | nil => simp [bigEndianVal, bevRec]
  | cons b bs ih =>
    unfold bigEndianVal
    rw [List.length_cons, Finset.sum_range_succ']
    have head : (if (b :: bs).getD 0 false then 1 else 0) *
        2 ^ (bs.length + 1 - 1 - 0) = (if b then 1 else 0) * 2 ^ bs.length := by
      simp
    have tail : ∀ k, (if (b :: bs).getD (k + 1) false then 1 else 0) *
        2 ^ (bs.length + 1 - 1 - (k + 1)) =
        (if bs.getD k false then 1 else 0) * 2 ^ (bs.length - 1 - k) := by
      intro k
      have h1 : bs.length + 1 - 1 - (k + 1) = bs.length - 1 - k := by omega
      rw [h1]
      rfl
    calc (∑ k ∈ Finset.range bs.length,
            (if (b :: bs).getD (k + 1) false then 1 else 0) *
              2 ^ (bs.length + 1 - 1 - (k + 1))) +
          (if (b :: bs).getD 0 false then 1 else 0) * 2 ^ (bs.length + 1 - 1 - 0)
        = (∑ k ∈ Finset.range bs.length,
            (if bs.getD k false then 1 else 0) * 2 ^ (bs.length - 1 - k)) +
          (if b then 1 else 0) * 2 ^ bs.length := by
          rw [head, Finset.sum_congr rfl (fun k _ => tail k)]
      _ = bevRec (b :: bs) := by
          rw [show (∑ k ∈ Finset.range bs.length,
            (if bs.getD k false then 1 else 0) * 2 ^ (bs.length - 1 - k)) =
              bigEndianVal bs from rfl, ih]
          simp [bevRec]
          omega

lemma levelIdeal_length {α : Type} (b : Bool) :
    ∀ (p : Nat) (l : List α), l.length = 2 * p → (levelIdeal b l).length = p := by
  intro p
  induction p with
  | zero =>
    intro l hl
    have : l = [] := List.length_eq_zero.mp (by omega)
    subst this
    simp [levelIdeal]
  | succ p ih =>
    intro l hl
    match l with
    | [] => simp only [List.length_nil] at hl; omega
    | [x] => simp only [List.length_cons, List.length_nil] at hl; omega
    | x :: y :: rest =>
      have hrest : rest.length = 2 * p := by
        simp only [List.length_cons] at hl
        omega
      simp only [levelIdeal, List.length_cons, ih rest hrest]

lemma levelIdeal_getElem {α : Type} (b : Bool) :
    ∀ (p : Nat) (l : List α) (j : Nat), l.length = 2 * p → j < p →
      (levelIdeal b l)[j]? = l[2 * j + (if b then 1 else 0)]? := by
  intro p
  induction p with
  | zero => intro l j hl hj; omega
  | succ p ih =>
    intro l j hl hj
    match l with
    | [] => simp only [List.length_nil] at hl; omega
    | [x] => simp only [List.length_cons, List.length_nil] at hl; omega
    | x :: y :: rest =>
      have hrest : rest.length = 2 * p := by
        simp only [List.length_cons] at hl
        omega
      match j with
      | 0 =>
        cases b <;> simp [levelIdeal]
      | j + 1 =>
        have hj' : j < p := by omega
        have harith : 2 * (j + 1) + (if b then 1 else 0) =
            (2 * j + (if b then 1 else 0)) + 1 + 1 := by
          split <;> omega
        rw [harith]
        simp only [levelIdeal, List.getElem?_cons_succ]
        exact ih rest j hrest hj'

lemma pairSelect_ideal {σ ε α : Type} (cs : σ → Bool → α → α → RunResult ε (α × σ))
    (hcs : ∀ s c t f, ∃ s1, cs s c t f = RunResult.ok (if c then t else f, s1))
    (b : Bool) :
    ∀ (p : Nat) (l : List α) (s : σ), l.length = 2 * p →
      ∃ s1, pairSelect cs b s l = RunResult.ok (levelIdeal b l, s1) := by
  intro p
  induction p with
  | zero =>
    intro l s hl
    have : l = [] := List.length_eq_zero.mp (by omega)
    subst this
    exact ⟨s, rfl⟩
  | succ p ih =>
    intro l s hl
    match l with
    | [] => simp only [List.length_nil] at hl; omega
    | [x] => simp only [List.length_cons, List.length_nil] at hl; omega
    | x :: y :: rest =>
      have hrest : rest.length = 2 * p := by
        simp only [List.length_cons] at hl; omega
      obtain ⟨s1, h1⟩ := hcs s b y x
      obtain ⟨s2, h2⟩ := ih rest s1 hrest
      refine ⟨s2, ?_⟩
      simp only [pairSelect, h1, h2, levelIdeal]

lemma repeatedSelectionAux_ideal {σ ε α : Type}
    (cs : σ → Bool → α → α → RunResult ε (α × σ)) (pos : List Bool)
    (hcs : ∀ s c t f, ∃ s1, cs s c t f = RunResult.ok (if c then t else f, s1)) :
    ∀ (k : Nat), k ≤ pos.length → ∀ (s : σ) (cur : List α), cur.length = 2 ^ k →
      ∃ v s1, cur[bevRec (pos.take k)]? = some v ∧
        repeatedSelectionAux cs pos k s cur = RunResult.ok (v, s1) := by
  intro k
  induction k with
  | zero =>
    intro hk s cur hl
    obtain ⟨v, rfl⟩ := List.length_eq_one.mp (by simpa using hl)
    refine ⟨v, s, ?_, rfl⟩
    simp [bevRec]
  | succ k ih =>
    intro hk s cur hl
    have hk' : k < pos.length := by omega
    have hb : pos[k]? = some (pos[k]) := List.getElem?_eq_getElem hk'
    obtain ⟨s1, hps⟩ := pairSelect_ideal cs hcs (pos[k]) (2 ^ k) cur s (by rw [hl]; ring)
    have hlen2 : (levelIdeal (pos[k]) cur).length = 2 ^ k :=
      levelIdeal_length _ (2 ^ k) cur (by rw [hl]; ring)
    obtain ⟨v, s2, hidx, haux⟩ := ih (by omega) s1 (levelIdeal (pos[k]) cur) hlen2
    have hj : bevRec (pos.take k) < 2 ^ k := by
      have hbl := bevRec_lt (pos.take k)
      rwa [List.length_take, min_eq_left (by omega)] at hbl
    have hgl : (levelIdeal (pos[k]) cur)[bevRec (pos.take k)]? =
        cur[2 * bevRec (pos.take k) + (if pos[k] then 1 else 0)]? :=
      levelIdeal_getElem _ (2 ^ k) cur _ (by rw [hl]; ring) hj
    have htake : pos.take (k + 1) = pos.take k ++ [pos[k]] := by
      rw [List.take_succ, hb]
      rfl
    have hbev : bevRec (pos.take (k + 1)) =
        2 * bevRec (pos.take k) + (if pos[k] then 1 else 0) := by
      rw [htake, bevRec_append]
    have hcond : cur.length = 1 <<< (k + 1) := by rw [hl, Nat.one_shiftLeft]
    refine ⟨v, s2, ?_, ?_⟩
    · rw [hbev, ← hgl]
      exact hidx
    · simp only [repeatedSelectionAux, hb, hps]
      rw [if_pos hcond]
      exact haux

lemma pairSelect_count {ε α : Type} (cs : Nat → Bool → α → α → RunResult ε (α × Nat))
    (hcs : ∀ s c t f, ∃ v, cs s c t f = RunResult.ok (v, s + 1)) (b : Bool) :
    ∀ (p : Nat) (l : List α) (s : Nat), l.length = 2 * p →
      ∃ l2, pairSelect cs b s l = RunResult.ok (l2, s + p) ∧ l2.length = p := by
  intro p
  induction p with
  | zero =>
    intro l s hl
    have : l = [] := List.length_eq_zero.mp (by omega)
    subst this
    exact ⟨[], by simp [pairSelect], rfl⟩
  | succ p ih =>
    intro l s hl
    match l with
    | [] => simp only [List.length_nil] at hl; omega
    | [x] => simp only [List.length_cons, List.length_nil] at hl; omega
    | x :: y :: rest =>
      have hrest : rest.length = 2 * p := by
        simp only [List.length_cons] at hl; omega
      obtain ⟨v, h1⟩ := hcs s b y x
      obtain ⟨l2, h2, hl2⟩ := ih rest (s + 1) hrest
      refine ⟨v :: l2, ?_, by simp [hl2]⟩
      have harith : s + 1 + p = s + (p + 1) := by omega
      simp only [pairSelect, h1, h2, harith]

lemma repeatedSelectionAux_count {ε α : Type}
    (cs : Nat → Bool → α → α → RunResult ε (α × Nat)) (pos : List Bool)
    (hcs : ∀ s c t f, ∃ v, cs s c t f = RunResult.ok (v, s + 1)) :
    ∀ (k : Nat), k ≤ pos.length → ∀ (s : Nat) (cur : List α), cur.length = 2 ^ k →
      ∃ v, repeatedSelectionAux cs pos k s cur = RunResult.ok (v, s + (2 ^ k - 1)) := by
  intro k
  induction k with
  | zero =>
    intro hk s cur hl
    obtain ⟨v, rfl⟩ := List.length_eq_one.mp (by simpa using hl)
    exact ⟨v, by simp [repeatedSelectionAux]⟩
  | succ k ih =>
    intro hk s cur hl
    have hk' : k < pos.length := by omega
    have hb : pos[k]? = some (pos[k]) := List.getElem?_eq_getElem hk'
    obtain ⟨l2, hps, hl2⟩ := pairSelect_count cs hcs (pos[k]) (2 ^ k) cur s
      (by rw [hl]; ring)
    obtain ⟨v, haux⟩ := ih (by omega) (s + 2 ^ k) l2 hl2
    have hcond : cur.length = 1 <<< (k + 1) := by rw [hl, Nat.one_shiftLeft]
    refine ⟨v, ?_⟩
    simp only [repeatedSelectionAux, hb, hps]
    rw [if_pos hcond, haux]
    have hpow : (2 : Nat) ^ (k + 1) = 2 * 2 ^ k := by rw [pow_succ]; ring
    have hone : 1 ≤ (2 : Nat) ^ k := Nat.one_le_two_pow
    have harith : s + 2 ^ k + (2 ^ k - 1) = s + (2 ^ (k + 1) - 1) := by omega
    rw [harith]

lemma pairSelect_failAt_ok {ε α : Type} (val : Nat → Bool → α → α → α) (e : ε)
    (K : Nat) (b : Bool) :
    ∀ (p : Nat) (l : List α) (s : Nat), l.length = 2 * p → s + p ≤ K →
      ∃ l2, pairSelect (failAtCS val e K) b s l = RunResult.ok (l2, s + p) ∧
        l2.length = p := by
  intro p
  induction p with
  | zero =>
    intro l s hl hK
    have : l = [] := List.length_eq_zero.mp (by omega)
    subst this
    exact ⟨[], by simp [pairSelect], rfl⟩
  | succ p ih =>
    intro l s hl hK
    match l with
    | [] => simp only [List.length_nil] at hl; omega
    | [x] => simp only [List.length_cons, List.length_nil] at hl; omega
    | x :: y :: rest =>
      have hrest : rest.length = 2 * p := by
        simp only [List.length_cons] at hl; omega
      have h1 : failAtCS val e K s b y x = RunResult.ok (val s b y x, s + 1) := by
        unfold failAtCS
        rw [if_pos (by omega)]
      obtain ⟨l2, h2, hl2⟩ := ih rest (s + 1) hrest (by omega)
      refine ⟨val s b y x :: l2, ?_, by simp [hl2]⟩
      have harith : s + 1 + p = s + (p + 1) := by omega
      simp only [pairSelect, h1, h2, harith]

lemma pairSelect_failAt_err {ε α : Type} (val : Nat → Bool → α → α → α) (e : ε)
    (K : Nat) (b : Bool) :
    ∀ (p : Nat) (l : List α) (s : Nat), l.length = 2 * p → s ≤ K → K < s + p →
      pairSelect (failAtCS val e K) b s l = RunResult.err e := by
  intro p
  induction p with
  | zero =>
    intro l s hl hsK hKs
    omega
  | succ p ih =>
    intro l s hl hsK hKs
    match l with
    | [] => simp only [List.length_nil] at hl; omega
    | [x] => simp only [List.length_cons, List.length_nil] at hl; omega
    | x :: y :: rest =>
      have hrest : rest.length = 2 * p := by
        simp only [List.length_cons] at hl; omega
      rcases Nat.lt_or_ge s K with hlt | hge
      · have h1 : failAtCS val e K s b y x = RunResult.ok (val s b y x, s + 1) := by
          unfold failAtCS
          rw [if_pos hlt]
        have h2 : pairSelect (failAtCS val e K) b (s + 1) rest = RunResult.err e :=
          ih rest (s + 1) hrest (by omega) (by omega)
        simp only [pairSelect, h1, h2]
      · have hseq : s = K := by omega
        have h1 : failAtCS val e K s b y x = RunResult.err e := by
          unfold failAtCS
          rw [if_neg (by omega), if_pos hseq]
        simp only [pairSelect, h1]

lemma repeatedSelectionAux_failAt {ε α : Type} (val : Nat → Bool → α → α → α)
    (e : ε) (K : Nat) (pos : List Bool) :
    ∀ (k : Nat), k ≤ pos.length → ∀ (s : Nat) (cur : List α), cur.length = 2 ^ k →
      s ≤ K → K < s + (2 ^ k - 1) →
      repeatedSelectionAux (failAtCS val e K) pos k s cur = RunResult.err e := by
  intro k
  induction k with
  | zero =>
    intro hk s cur hl hsK hKs
    have h0 : (2 : Nat) ^ 0 - 1 = 0 := rfl
    omega
  | succ k ih =>
    intro hk s cur hl hsK hKs
    have hk' : k < pos.length := by omega
    have hb : pos[k]? = some (pos[k]) := List.getElem?_eq_getElem hk'
    have hcond : cur.length = 1 <<< (k + 1) := by rw [hl, Nat.one_shiftLeft]
    have hpow : (2 : Nat) ^ (k + 1) = 2 * 2 ^ k := by rw [pow_succ]; ring
    have hone : 1 ≤ (2 : Nat) ^ k := Nat.one_le_two_pow
    rcases Nat.lt_or_ge K (s + 2 ^ k) with hcase | hcase
    · have herr : pairSelect (failAtCS val e K) (pos[k]) s cur = RunResult.err e :=
        pairSelect_failAt_err val e K (pos[k]) (2 ^ k) cur s (by rw [hl]; ring)
          hsK hcase
      simp only [repeatedSelectionAux, hb, herr]
      rw [if_pos hcond]
    · obtain ⟨l2, hok, hl2⟩ := pairSelect_failAt_ok val e K (pos[k]) (2 ^ k) cur s
        (by rw [hl]; ring) hcase
      have hrec := ih (by omega) (s + 2 ^ k) l2 hl2 hcase (by omega)
      simp only [repeatedSelectionAux, hb, hok]
      rw [if_pos hcond]
      exact hrec

lemma sum_of_conditions_panic_aux {ε α : Type} (position : List Bool)
    (values : List α) :
    sum_of_conditions position values = (RunResult.panic : RunResult ε α) := by
  unfold sum_of_conditions
  split <;> try rfl
  split <;> try rfl
  split <;> rfl

lemma repeated_selection_eq_aux {σ ε α : Type}
    (cs : σ → Bool → α → α → RunResult ε (α × σ)) (s : σ) (position : List Bool)
    (values : List α) (hlen : values.length = 2 ^ position.length) :
    repeated_selection cs s position values =
      repeatedSelectionAux cs position position.length s values := by
  unfold repeated_selection
  simp only [hlen, rust_is_power_of_two_pow, Nat.one_shiftLeft, eq_self_iff_true,
    if_true]

/-- C1 (code_bug evidence): evaluated at the failing input
`position = [true]`, `values = [5, 7]` — a perfectly valid selection of
`values[1]` — the public entry point
`conditionally_select_power_of_two_vector` panics instead of returning
the repeated-selection result, because it first evaluates the always
panicking `sum_of_conditions`. -/
theorem conditionally_select_power_of_two_vector_panics :
    conditionally_select_power_of_two_vector idealCS () [true] [5, 7] =
      RunResult.panic := by
  unfold conditionally_select_power_of_two_vector
  rw [sum_of_conditions_panic_aux]

/-- C2: for every selector sequence of boolean wires with definite
witness values and every candidate table of length `2 ^ n`, if the
two-way `conditionally_select` satisfies its contract (returns the
true-branch value when the condition is 1 and the false-branch value
when 0, for any evolution of the constraint-system state), then
`repeated_selection` returns `Ok` of the table entry at index
`∑ k, position[k] * 2 ^ (n - 1 - k)`, i.e. the candidate addressed by
the bits read most-significant-bit-first. -/
theorem repeated_selection_correct {σ ε α : Type}
    (cs : σ → Bool → α → α → RunResult ε (α × σ)) (s : σ)
    (position : List Bool) (values : List α)
    (hcs : ∀ s c t f, ∃ s1, cs s c t f = RunResult.ok (if c then t else f, s1))
    (hlen : values.length = 2 ^ position.length) :
    ∃ v s1, values[bigEndianVal position]? = some v ∧
      repeated_selection cs s position values = RunResult.ok (v, s1) := by
  obtain ⟨v, s1, hidx, haux⟩ :=
    repeatedSelectionAux_ideal cs position hcs position.length le_rfl s values hlen
  refine ⟨v, s1, ?_, ?_⟩
  · rw [bigEndianVal_eq_bevRec]
    rw [List.take_length] at hidx
    exact hidx
  · rw [repeated_selection_eq_aux cs s position values hlen]
    exact haux

/-- Witness for C2: position `[true, false]` encodes 2
most-significant-bit-first, and the engine selects the third entry of
the four-entry table. -/
theorem repeated_selection_correct_witness :
    ∃ v s1, ([10, 20, 30, 40] : List Nat)[bigEndianVal [true, false]]? = some v ∧
      repeated_selection idealCS () [true, false] [10, 20, 30, 40] =
        RunResult.ok (v, s1) :=
  repeated_selection_correct idealCS () [true, false] [10, 20, 30, 40]
    (fun s c t f => ⟨s, rfl⟩) (by decide)

/-- C3: `sum_of_conditions` never returns a value: on every input it
ends in a panic (for any input passing the precondition asserts, the
inclusion-exclusion loop indexes the never-filled `selector_sums`
vector, and even past that loop the accumulated weighted sum is
discarded and `unimplemented!()` is reached), never `Ok` and never
`Err`. -/
theorem sum_of_conditions_never_returns {ε α : Type} (position : List Bool)
    (values : List α) :
    sum_of_conditions position values = (RunResult.panic : RunResult ε α) :=
  sum_of_conditions_panic_aux position values

/-- C4: whenever the candidate-table length differs from
`2 ^ (selector length)`, both multi-way selection entry points panic at
their precondition asserts — for every `conditionally_select`
realization and every constraint-system state, so before any two-way
select can run. -/
theorem multiway_select_precondition_panics {σ ε α : Type}
    (cs : σ → Bool → α → α → RunResult ε (α × σ)) (s : σ)
    (position : List Bool) (values : List α)
    (hlen : values.length ≠ 2 ^ position.length) :
    repeated_selection cs s position values = RunResult.panic ∧
    sum_of_conditions position values = (RunResult.panic : RunResult ε α) := by
  refine ⟨?_, sum_of_conditions_panic_aux position values⟩
  unfold repeated_selection
  by_cases hp : rust_is_power_of_two values.length = true
  · have hne : ¬(1 <<< position.length = values.length) := by
      rw [Nat.one_shiftLeft]
      omega
    rw [if_pos hp, if_neg hne]
  · rw [if_neg hp]

/-- Witness for C4: one selector bit with a table of length 3 (not
`2 ^ 1`) makes both entry points panic. -/
theorem multiway_select_precondition_panics_witness :
    repeated_selection idealCS () [true] [(1 : Nat), 2, 3] = RunResult.panic ∧
    sum_of_conditions [true] [(1 : Nat), 2, 3] =
      (RunResult.panic : RunResult Unit Nat) :=
  multiway_select_precondition_panics idealCS () [true] [1, 2, 3] (by decide)

/-- C5: for bits of length 2 (definite witness values) and a constants
table of length 4, `two_bit_lookup` returns the value of
`constants[b]` with `b = bits[0] + 2 * bits[1]`, `bits[0]` least
significant; and it panics whenever `bits.len() != 2` or
`constants.len() != 4`. -/
theorem two_bit_lookup_spec {ε α : Type} (bits : List Bool) (constants : List α) :
    (bits.length = 2 → constants.length = 4 →
      ∃ v, constants[((if bits.getD 0 false then 1 else 0) +
          2 * (if bits.getD 1 false then 1 else 0) : Nat)]? = some v ∧
        two_bit_lookup bits constants = (RunResult.ok v : RunResult ε α)) ∧
    (bits.length ≠ 2 ∨ constants.length ≠ 4 →
      two_bit_lookup bits constants = (RunResult.panic : RunResult ε α)) := by
  constructor
  · intro h2 h4
    have hcond : ¬(bits.length ≠ 2 ∨ constants.length ≠ 4) := by omega
    have hidx : ((if bits.getD 0 false then 1 else 0) +
        2 * (if bits.getD 1 false then 1 else 0) : Nat) < constants.length := by
      rw [h4]
      split <;> split <;> omega
    have hsome := List.getElem?_eq_getElem hidx
    refine ⟨_, hsome, ?_⟩
    simp only [two_bit_lookup, if_neg hcond, hsome]
  · intro hbad
    unfold two_bit_lookup
    rw [if_pos hbad]

/-- Witness for C5, the spec's own example: bits `[0, 1]` encode
`b = 0 + 2 * 1 = 2` and the lookup returns the third constant. -/
theorem two_bit_lookup_spec_witness :
    ∃ v, ([10, 11, 12, 13] : List Nat)[(2 : Nat)]? = some v ∧
      two_bit_lookup [false, true] [10, 11, 12, 13] =
        (RunResult.ok v : RunResult Unit Nat) :=
  (two_bit_lookup_spec [false, true] [10, 11, 12, 13]).1 rfl rfl

/-- C6 counterexample: the source declaration of
`three_bit_cond_neg_lookup` (src/src/select.rs lines 212-216) takes the
parameters `(bits, b0b1, constants)`, not exactly `(bits, constants)`
as the claim (following the spec, section 6) states. -/
theorem three_bit_cond_neg_lookup_signature_counterexample :
    three_bit_cond_neg_lookup_params ≠ three_bit_cond_neg_lookup_spec_params := by
  decide

/-- C6 (amended): the three-bit lookup entry point takes the three
arguments `(bits, b0b1, constants)`; for bits of length 3 (definite
witness values) and a constants table of length 4 it returns
`constants[b] * c` with `b = bits[0] + 2 * bits[1]` and `c = -1` if
`bits[2]` else `+1`, for every value of the extra `b0b1` argument; and
it panics whenever `bits.len() != 3` or `constants.len() != 4`. -/
theorem three_bit_cond_neg_lookup_spec {ε α : Type} [Ring α] (bits : List Bool)
    (b0b1 : Bool) (constants : List α) :
    (bits.length = 3 → constants.length = 4 →
      ∃ v, constants[((if bits.getD 0 false then 1 else 0) +
          2 * (if bits.getD 1 false then 1 else 0) : Nat)]? = some v ∧
        three_bit_cond_neg_lookup bits b0b1 constants =
          (RunResult.ok (v * (if bits.getD 2 false then -1 else 1)) :
            RunResult ε α)) ∧
    (bits.length ≠ 3 ∨ constants.length ≠ 4 →
      three_bit_cond_neg_lookup bits b0b1 constants =
        (RunResult.panic : RunResult ε α)) ∧
    three_bit_cond_neg_lookup_params = ["bits", "b0b1", "constants"] := by
  refine ⟨?_, ?_, rfl⟩
  · intro h3 h4
    have hcond : ¬(bits.length ≠ 3 ∨ constants.length ≠ 4) := by omega
    have hidx : ((if bits.getD 0 false then 1 else 0) +
        2 * (if bits.getD 1 false then 1 else 0) : Nat) < constants.length := by
      rw [h4]
      split <;> split <;> omega
    have hsome := List.getElem?_eq_getElem hidx
    refine ⟨_, hsome, ?_⟩
    simp only [three_bit_cond_neg_lookup, if_neg hcond, hsome]
  · intro hbad
    unfold three_bit_cond_neg_lookup
    rw [if_pos hbad]

/-- Witness for C6, the spec's own example: bits `[1, 0, 1]` encode
`b = 1` with the sign bit set, so the lookup returns the negation of
the second constant. -/
theorem three_bit_cond_neg_lookup_spec_witness :
    ∃ v, ([0, 1, 2, 3] : List Int)[(1 : Nat)]? = some v ∧
      three_bit_cond_neg_lookup [true, false, true] false [0, 1, 2, 3] =
        (RunResult.ok (v * -1) : RunResult Unit Int) :=
  (three_bit_cond_neg_lookup_spec [true, false, true] false [0, 1, 2, 3]).1 rfl rfl

/-- C7: over a table of length `m = 2 ^ n` passing the precondition,
`repeated_selection` invokes the two-way `conditionally_select` exactly
`m - 1` times when no invocation returns an error: with the
constraint-system state instantiated as an invocation counter that
every call increments by one, the final counter is the initial one plus
`m - 1`. -/
theorem repeated_selection_select_count {ε α : Type}
    (cs : Nat → Bool → α → α → RunResult ε (α × Nat)) (s0 : Nat)
    (position : List Bool) (values : List α)
    (hcs : ∀ s c t f, ∃ v, cs s c t f = RunResult.ok (v, s + 1))
    (hlen : values.length = 2 ^ position.length) :
    ∃ v, repeated_selection cs s0 position values =
      RunResult.ok (v, s0 + (values.length - 1)) := by
  obtain ⟨v, haux⟩ :=
    repeatedSelectionAux_count cs position hcs position.length le_rfl s0 values hlen
  refine ⟨v, ?_⟩
  rw [repeated_selection_eq_aux cs s0 position values hlen, haux, hlen]

/-- Witness for C7: selecting among 4 candidates makes exactly 3
two-way selects. -/
theorem repeated_selection_select_count_witness :
    ∃ v, repeated_selection
        (fun (s : Nat) (c : Bool) (t f : Nat) =>
          (RunResult.ok (t, s + 1) : RunResult Unit (Nat × Nat)))
        0 [true, false] [10, 20, 30, 40] = RunResult.ok (v, 3) :=
  repeated_selection_select_count
    (fun (s : Nat) (c : Bool) (t f : Nat) =>
      (RunResult.ok (t, s + 1) : RunResult Unit (Nat × Nat)))
    0 [true, false] [10, 20, 30, 40] (fun s c t f => ⟨t, rfl⟩) (by decide)

/-- C8: on every valid input, if the `K`-th invocation (0-based) of the
two-way `conditionally_select` returns `Err e` — modelled by a
realization that succeeds on the first `K` invocations, errors at
invocation `K`, and panics on any invocation after it — then
`repeated_selection` returns exactly `Err e`, unmodified; since every
later invocation would panic instead, the result also shows that no
two-way select runs after the failing one. -/
theorem repeated_selection_error_prop {ε α : Type} (val : Nat → Bool → α → α → α)
    (e : ε) (K : Nat) (position : List Bool) (values : List α)
    (hlen : values.length = 2 ^ position.length)
    (hK : K < values.length - 1) :
    repeated_selection (failAtCS val e K) 0 position values = RunResult.err e := by
  rw [repeated_selection_eq_aux (failAtCS val e K) 0 position values hlen]
  refine repeatedSelectionAux_failAt val e K position position.length le_rfl 0
    values hlen (by omega) ?_
  rw [hlen] at hK
  omega

/-- Witness for C8: with 4 candidates and the second invocation
failing with error 37, the engine returns exactly that error. -/
theorem repeated_selection_error_prop_witness :
    repeated_selection (failAtCS (fun _ _ t _ => t) (37 : Nat) 1) 0 [true, false]
      [(1 : Nat), 2, 3, 4] = RunResult.err 37 :=
  repeated_selection_error_prop (fun _ _ t _ => t) 37 1 [true, false] [1, 2, 3, 4]
    (by decide) (by decide)

/-- C9: with an empty selector sequence and a single-element table,
`repeated_selection` succeeds and returns `Ok` of that element, for
every `conditionally_select` realization and with the
constraint-system state unchanged — no two-way select is invoked. -/
theorem repeated_selection_singleton {σ ε α : Type}
    (cs : σ → Bool → α → α → RunResult ε (α × σ)) (s : σ) (v : α) :
    repeated_selection cs s [] [v] = RunResult.ok (v, s) := by
  rw [repeated_selection_eq_aux cs s [] [v] (by simp)]
  rfl

/-- C10: `count_ones` terminates on every `usize` input (its Lean
model is a total function, justified by the loop variable strictly
decreasing under the right shift) and returns the number of 1 bits in
the binary representation of its argument. -/
theorem count_ones_correct (x : Nat) (h : x < 2 ^ 64) :
    count_ones x = (Nat.digits 2 x).count 1 :=
  count_ones_digits x

/-- Witness for C10: 13 = 0b1101 has three 1 bits. -/
theorem count_ones_correct_witness :
    count_ones 13 = (Nat.digits 2 13).count 1 :=
  count_ones_correct 13 (by norm_num)

end Select
